import Mathlib

/-!
Verification of the dynamic program-analysis engine
(`homework3_dynamic_analysis`): trace recorder (`tracer_engine.py`),
execution indexer (`execution_indexer.py`), dynamic slicer
(`dynamic_slicer.py`) and spectrum-based fault localizer
(`fault_localization.py`), shallowly embedded in Lean 4.
-/

namespace DynAnalysis

/-- Captured value snapshot: a closed variant sufficient for the equality
comparisons the engine performs on recorded locals. -/
inductive Val where
  | intV (n : Int)
  | strV (s : String)
  | boolV (b : Bool)
  | noneV
deriving DecidableEq

/-- A locals snapshot: a Python dict `name -> value`, embedded as an
association list (dict keys are unique; stated as `Nodup` where needed). -/
abbrev Locals := List (String × Val)

/-- The key set of a locals snapshot (dict key iteration order). -/
def localKeys (l : Locals) : List String := l.map Prod.fst

/-- `TraceEvent` from `tracer_engine.py`: one observed execution step. -/
structure TraceEvent where
  event_type : String
  filename : String
  line_number : Nat
  function_name : String
  local_vars : Locals
  memory_access : List String
deriving DecidableEq

/-- `Tracer._detect_memory_access` (tracer_engine.py lines 99-121): diff the
current locals against the previous event's locals; new-or-changed names are
tagged `write:`, names present in both snapshots with an equal value are
tagged `read:` (writes listed first, as in the source). -/
def detect_memory_access (previous_locals current_locals : Locals) : List String :=
  (current_locals.filterMap fun p =>
    if p.1 ∉ localKeys previous_locals then some ("write:" ++ p.1)
    else if previous_locals.lookup p.1 ≠ some p.2 then some ("write:" ++ p.1)
    else none)
  ++
  (previous_locals.filterMap fun p =>
    if p.1 ∈ localKeys current_locals ∧ current_locals.lookup p.1 = some p.2
    then some ("read:" ++ p.1) else none)

/-- `Tracer.get_executed_lines` (tracer_engine.py lines 190-192): the line
numbers of all events whose type is `'line'`, in trace order. -/
def get_executed_lines (trace_log : List TraceEvent) : List Nat :=
  (trace_log.filter fun e => e.event_type == "line").map fun e => e.line_number

/-- `ExecutionPoint` from `execution_indexer.py`: `(context, statement,
instance)`; equality is componentwise, as in the source's `__eq__`. -/
structure ExecutionPoint where
  context : List String
  statement : Nat
  inst : Nat
deriving DecidableEq

/-- `ExecutionIndexer` state: context stack, per-`(context, line)` instance
counters (a `defaultdict(int)`, embedded as an association list read through
`counterLookup`), ordered history and running index. -/
structure ExecutionIndexer where
  context_stack : List String
  instance_counters : List ((List String × Nat) × Nat)
  execution_points : List ExecutionPoint
  current_index : Nat
deriving DecidableEq

/-- A fresh indexer (`ExecutionIndexer.__init__`). -/
def ExecutionIndexer.init : ExecutionIndexer := ⟨[], [], [], 0⟩

/-- `defaultdict(int)` read: a missing key counts as `0`. -/
def counterLookup (m : List ((List String × Nat) × Nat)) (k : List String × Nat) : Nat :=
  (m.lookup k).getD 0

/-- `ExecutionIndexer.push_context`: push a function name. -/
def push_context (s : ExecutionIndexer) (function_name : String) : ExecutionIndexer :=
  { s with context_stack := s.context_stack ++ [function_name] }

/-- `ExecutionIndexer.pop_context`: pop, a no-op on an empty stack. -/
def pop_context (s : ExecutionIndexer) : ExecutionIndexer :=
  { s with context_stack := s.context_stack.dropLast }

/-- `ExecutionIndexer.record_execution` (execution_indexer.py lines 74-105):
snapshot the context, bump the `(context, line)` counter, build the point,
append it to the history. Returns the updated state with the new point.
The dict write is embedded as a shadowing cons: `counterLookup` always sees
the most recent binding. -/
def record_execution (s : ExecutionIndexer) (line_number : Nat) :
    ExecutionIndexer × ExecutionPoint :=
  let context := s.context_stack
  let counter_key := (context, line_number)
  let inst := counterLookup s.instance_counters counter_key + 1
  let exec_point : ExecutionPoint := ⟨context, line_number, inst⟩
  ({ s with
      instance_counters := (counter_key, inst) :: s.instance_counters
      execution_points := s.execution_points ++ [exec_point]
      current_index := s.current_index + 1 },
   exec_point)

/-- `ExecutionIndexer.reset` (execution_indexer.py lines 107-112): clear
context, counters, history and index. -/
def ExecutionIndexer.reset (_s : ExecutionIndexer) : ExecutionIndexer := ⟨[], [], [], 0⟩

/-- One client call on the indexer. -/
inductive IndexerOp where
  | push (function_name : String)
  | pop
  | record (line_number : Nat)
  | reset
deriving DecidableEq

/-- Run a sequence of indexer calls from a given state. -/
def runOps : ExecutionIndexer → List IndexerOp → ExecutionIndexer
  | s, [] => s
  | s, IndexerOp.push f :: ops => runOps (push_context s f) ops
  | s, IndexerOp.pop :: ops => runOps (pop_context s) ops
  | s, IndexerOp.record n :: ops => runOps (record_execution s n).1 ops
  | s, IndexerOp.reset :: ops => runOps (ExecutionIndexer.reset s) ops

/-- Specification-side count: how many `record` calls in `ops` hit the key
`k` (simulating the context stack from `stk`, with running count `acc`,
restarting at `reset` exactly as the counters do). -/
def counterAfter : List IndexerOp → List String → Nat → (List String × Nat) → Nat
  | [], _, acc, _ => acc
  | IndexerOp.push f :: ops, stk, acc, k => counterAfter ops (stk ++ [f]) acc k
  | IndexerOp.pop :: ops, stk, acc, k => counterAfter ops stk.dropLast acc k
  | IndexerOp.record n :: ops, stk, acc, k =>
      counterAfter ops stk (if (stk, n) = k then acc + 1 else acc) k
  | IndexerOp.reset :: ops, _, _, k => counterAfter ops [] 0 k

/-- The instances of the recorded points for a fixed `(context, statement)`
pair, in recording order. -/
def matchingInstances (s : ExecutionIndexer) (c : List String) (l : Nat) : List Nat :=
  (s.execution_points.filter fun p => p.context == c && p.statement == l).map
    fun p => p.inst

/-- `FaultLocalizer._compute_tarantula` (fault_localization.py lines
176-206), with exact rational arithmetic standing for the source's
floating-point arithmetic. -/
def compute_tarantula (failed_covering total_failed passed_covering total_passed : ℕ) : ℚ :=
  if total_failed = 0 then 0
  else
    let failed_ratio : ℚ :=
      if 0 < total_failed then (failed_covering : ℚ) / (total_failed : ℚ) else 0
    let passed_ratio : ℚ :=
      if 0 < total_passed then (passed_covering : ℚ) / (total_passed : ℚ) else 0
    let denominator := passed_ratio + failed_ratio
    if denominator = 0 then 0 else failed_ratio / denominator

/-- Concrete locals snapshots exercising the access detector. -/
def prevLocalsDemo : Locals := [("x", Val.intV 1), ("y", Val.intV 2)]

def curLocalsDemo : Locals := [("x", Val.intV 1), ("z", Val.intV 5)]

/-- A minimal `'line'` event at a given line, used as concrete input. -/
def lineEventAt (n : Nat) : TraceEvent :=
  { event_type := "line", filename := "demo.py", line_number := n
    function_name := "f", local_vars := [], memory_access := [] }

/-- A trace visiting the same line twice (e.g. a loop body). -/
def dupLineTrace : List TraceEvent := [lineEventAt 5, lineEventAt 5]

/-- The process-wide `sys.settrace` slot: whether the tracer's hook is
installed. -/
structure SysState where
  hook_installed : Bool
deriving DecidableEq

/-- The `Tracer` fields driving session management (tracer_engine.py
lines 43-47). -/
structure TracerState where
  trace_log : List TraceEvent
  previous_locals : Locals
  is_tracing : Bool
deriving DecidableEq

/-- `Tracer.start_trace` (tracer_engine.py lines 123-128): reset trace
storage and install the process-wide hook. -/
def start_trace (t : TracerState) (_sys : SysState) : TracerState × SysState :=
  ({ t with is_tracing := true, trace_log := [], previous_locals := [] }, ⟨true⟩)

/-- `Tracer.stop_trace` (tracer_engine.py lines 130-133): stop tracing and
remove the process-wide hook. -/
def stop_trace (t : TracerState) (_sys : SysState) : TracerState × SysState :=
  ({ t with is_tracing := false }, ⟨false⟩)

/-- Observable behaviour of one traced invocation of the target callable:
the step events its hook invocations append while it runs, and its outcome
(a result, or the message of the exception it raises). -/
structure CallBehavior where
  events : List TraceEvent
  outcome : Except String Val

/-- `Tracer.trace_execution` (tracer_engine.py lines 135-152):
`start_trace`; run the callable, whose hook invocations append
`behavior.events` to the log; `finally:` run `stop_trace` on both the
normal path and the raising path; then return the result, or let the
original exception propagate (`Except.error`). -/
def trace_execution (t : TracerState) (sys : SysState) (behavior : CallBehavior) :
    Except String Val × TracerState × SysState :=
  let ts1 := start_trace t sys
  let t2 := { ts1.1 with trace_log := ts1.1.trace_log ++ behavior.events }
  match behavior.outcome with
  | Except.ok v =>
      let ts3 := stop_trace t2 ts1.2
      (Except.ok v, ts3.1, ts3.2)
  | Except.error e =>
      let ts3 := stop_trace t2 ts1.2
      (Except.error e, ts3.1, ts3.2)

/-- `IndexedTracer.trace_with_indexing` (execution_indexer.py lines
192-220), from a given indexer state: push the function name on a `'call'`
event, pop on `'return'`, record an execution point for every event, pair
it with the event. -/
def trace_with_indexing_from :
    ExecutionIndexer → List TraceEvent → List (TraceEvent × ExecutionPoint)
  | _, [] => []
  | idx, e :: rest =>
    let idx1 :=
      if e.event_type == "call" then push_context idx e.function_name
      else if e.event_type == "return" then pop_context idx
      else idx
    let r := record_execution idx1 e.line_number
    (e, r.2) :: trace_with_indexing_from r.1 rest

/-- `trace_with_indexing` first calls `self.indexer.reset()`, so the walk
starts from a fresh indexer. -/
def trace_with_indexing (trace_log : List TraceEvent) : List (TraceEvent × ExecutionPoint) :=
  trace_with_indexing_from ExecutionIndexer.init trace_log

/-- `TestCase` from `fault_localization.py`: `actual_output` is `None`
until the test runs; `covered_lines` starts empty (`__post_init__`). -/
structure TestCase where
  name : String
  input_args : List Val
  expected_output : Val
  actual_output : Option Val
  passed : Bool
  covered_lines : List Nat
deriving DecidableEq

/-- `FaultLocalizer.add_test_case` (fault_localization.py lines 60-81):
a pending test with default status fields. -/
def add_test_case (name : String) (input_args : List Val) (expected_output : Val) : TestCase :=
  ⟨name, input_args, expected_output, none, false, []⟩

/-- One iteration of the `run_tests` loop (fault_localization.py lines
94-121, tracer path): run the target under a fresh tracer session; on
success record the coverage set, the actual output and pass/fail; if the
invocation raises, capture `"Exception: e"` as the actual output and mark
the test failed — the coverage assignment is skipped, so `covered_lines`
keeps its prior value. -/
def run_one_test (target : List Val → CallBehavior) (tc : TestCase) : TestCase :=
  let b := target tc.input_args
  let r := trace_execution ⟨[], [], false⟩ ⟨false⟩ b
  match r.1 with
  | Except.ok actual =>
      { tc with
          covered_lines := (get_executed_lines r.2.1.trace_log).dedup
          actual_output := some actual
          passed := actual == tc.expected_output }
  | Except.error e =>
      { tc with
          actual_output := some (Val.strV ("Exception: " ++ e))
          passed := false }

/-- `FaultLocalizer.run_tests` (fault_localization.py lines 83-121):
process every registered test in order; the per-test `except` means one
test raising never aborts the loop. -/
def run_tests (target : List Val → CallBehavior) : List TestCase → List TestCase
  | [] => []
  | tc :: rest => run_one_test target tc :: run_tests target rest

/-- Python `str.startswith`, at the character level. -/
def strStartsWith (s pre : String) : Bool := s.data.take pre.data.length == pre.data

/-- Python slicing `s[n:]`, at the character level. -/
def strDrop (s : String) (n : Nat) : String := ⟨s.data.drop n⟩

/-- Python `set.add`: append if absent. -/
def setAdd {α : Type} [DecidableEq α] (s : List α) (a : α) : List α :=
  if a ∈ s then s else s ++ [a]

/-- Python `set.update`: add every element of `t`. -/
def setUnion {α : Type} [DecidableEq α] (s t : List α) : List α :=
  t.foldl setAdd s

/-- `SliceResult` from `dynamic_slicer.py` (lines 13-24). -/
structure SliceResult where
  target_line : Nat
  target_var : String
  relevant_lines : List Nat
  data_dependencies : List (Nat × List String)
  control_dependencies : List (Nat × List Nat)
deriving DecidableEq

/-- The `DynamicSlicer` working state (dynamic_slicer.py lines 38-42),
with the Python sets and dicts embedded as lists and association lists. -/
structure SlicerState where
  relevant_lines : List Nat
  variables_of_interest : List String
  data_deps : List (Nat × List String)
  control_deps : List (Nat × List Nat)
deriving DecidableEq

/-- `DynamicSlicer._get_affected_variables` (dynamic_slicer.py lines
145-152): the names carried by `write:` access tags (a Python set, hence
`dedup`). For a tag of the form `write:name`, `access.split(':', 1)[1]`
is the text after the 6-character tag. -/
def get_affected_variables (event : TraceEvent) : List String :=
  (event.memory_access.filterMap fun access =>
    if strStartsWith access "write:" then some (strDrop access 6) else none).dedup

/-- `DynamicSlicer._extract_used_variables` (dynamic_slicer.py lines
154-169): the names in the event's locals, other than the written variable
itself and names with the reserved `__` prefix, that carry a `read:` tag. -/
def extract_used_variables (event : TraceEvent) (target_var : String) : List String :=
  (localKeys event.local_vars).filter fun var_name =>
    var_name != target_var && !(strStartsWith var_name "__") &&
      event.memory_access.contains ("read:" ++ var_name)

/-- `DynamicSlicer._is_control_statement` (dynamic_slicer.py lines
171-175): any plain `'line'` event. -/
def is_control_statement (event : TraceEvent) : Bool :=
  event.event_type == "line"

/-- `DynamicSlicer._extract_control_variables` (dynamic_slicer.py lines
177-187): the names carried by `read:` access tags. -/
def extract_control_variables (event : TraceEvent) : List String :=
  (event.memory_access.filterMap fun access =>
    if strStartsWith access "read:" then some (strDrop access 5) else none).dedup

/-- Dict-of-sets update `data_deps[line] |= used_vars`, creating the entry
at the empty set if absent; embedded as a shadowing cons. -/
def depsAdd (m : List (Nat × List String)) (line : Nat) (used_vars : List String) :
    List (Nat × List String) :=
  (line, setUnion ((m.lookup line).getD []) used_vars) :: m

/-- Dict-of-sets update `control_deps[key].add(line)`, creating the entry
at the empty set if absent; embedded as a shadowing cons. -/
def controlAdd (m : List (Nat × List Nat)) (key : Nat) (line : Nat) : List (Nat × List Nat) :=
  (key, setAdd ((m.lookup key).getD []) line) :: m

/-- The loop `for relevant_line in list(self.relevant_lines)` of
dynamic_slicer.py lines 139-143: record `line` as controlling every
already-relevant later line. -/
def addControlDeps : List (Nat × List Nat) → List Nat → Nat → List (Nat × List Nat)
  | m, [], _ => m
  | m, r :: rest, line =>
      addControlDeps (if line < r then controlAdd m r line else m) rest line

/-- The data-dependency pass over the affected variables (dynamic_slicer.py
lines 114-128): for each written variable currently of interest, mark the
line relevant, merge its used variables into the data-dependency entry, and
add them to the variables of interest. -/
def processWrites (line : Nat) (event : TraceEvent) :
    SlicerState → List String → SlicerState
  | s, [] => s
  | s, var :: rest =>
    if var ∈ s.variables_of_interest then
      let used_vars := extract_used_variables event var
      let s1 : SlicerState :=
        { relevant_lines := setAdd s.relevant_lines line
          variables_of_interest := setUnion s.variables_of_interest used_vars
          data_deps := depsAdd s.data_deps line used_vars
          control_deps := s.control_deps }
      processWrites line event s1 rest
    else processWrites line event s rest

/-- The control-dependency step (dynamic_slicer.py lines 130-143). -/
def processControl (line : Nat) (event : TraceEvent) (s : SlicerState) : SlicerState :=
  if is_control_statement event then
    let control_vars := extract_control_variables event
    if control_vars.any (fun v => s.variables_of_interest.contains v) then
      let s1 := { s with relevant_lines := setAdd s.relevant_lines line }
      { s1 with control_deps := addControlDeps s1.control_deps s1.relevant_lines line }
    else s
  else s

/-- One iteration of the backward loop body (dynamic_slicer.py lines
106-143). -/
def processEvent (s : SlicerState) (event : TraceEvent) : SlicerState :=
  let line := event.line_number
  let affected_vars := get_affected_variables event
  let s1 := processWrites line event s affected_vars
  processControl line event s1

/-- `DynamicSlicer._backward_traverse` (dynamic_slicer.py lines 97-143):
process the events from `start_idx` down to index `0`, i.e. fold the
loop body over the reversed prefix. -/
def backward_traverse (s : SlicerState) (trace : List TraceEvent) (start_idx : Nat) :
    SlicerState :=
  ((trace.take (start_idx + 1)).reverse).foldl processEvent s

/-- `DynamicSlicer._find_target_event` (dynamic_slicer.py lines 89-95):
scan indices from the end; the first hit is the last occurrence of the
target variable at the target line. -/
def find_target_event (trace : List TraceEvent) (target_line : Nat) (target_var : String) :
    Option Nat :=
  (List.range trace.length).reverse.find? fun i =>
    match (trace)[i]? with
    | some event =>
        event.line_number == target_line &&
          (localKeys event.local_vars).contains target_var
    | none => false

/-- `DynamicSlicer.compute_dynamic_slice` (dynamic_slicer.py lines 44-87):
reset state to `{target_var}`, locate the target event; if absent return
the empty result (the non-fatal not-found outcome), otherwise traverse
backward from it. -/
def compute_dynamic_slice (trace : List TraceEvent) (target_line : Nat) (target_var : String) :
    SliceResult :=
  let s0 : SlicerState := ⟨[], [target_var], [], []⟩
  match find_target_event trace target_line target_var with
  | none => ⟨target_line, target_var, [], [], []⟩
  | some idx =>
      let s1 := backward_traverse s0 trace idx
      ⟨target_line, target_var, s1.relevant_lines, s1.data_deps, s1.control_deps⟩

/-- Demo trace, mirroring the example at the bottom of dynamic_slicer.py:
line 2 writes `a` reading `x`; line 3 writes `d` reading `a` and `x`. -/
def sliceEvent1 : TraceEvent :=
  { event_type := "line", filename := "demo.py", line_number := 2
    function_name := "f"
    local_vars := [("x", Val.intV 3), ("a", Val.intV 4)]
    memory_access := ["write:a", "read:x"] }

def sliceEvent2 : TraceEvent :=
  { event_type := "line", filename := "demo.py", line_number := 3
    function_name := "f"
    local_vars := [("x", Val.intV 3), ("a", Val.intV 4), ("d", Val.intV 8)]
    memory_access := ["write:d", "read:a", "read:x"] }

def sliceDemoTrace : List TraceEvent := [sliceEvent1, sliceEvent2]

/-- Growth preorder on slicer states: everything already recorded stays
recorded. The traversal only ever adds lines, variables and dependency
edges, so each loop iteration is `stateLe`-increasing. -/
def stateLe (s t : SlicerState) : Prop :=
  (∀ l, l ∈ s.relevant_lines → l ∈ t.relevant_lines) ∧
  (∀ v, v ∈ s.variables_of_interest → v ∈ t.variables_of_interest) ∧
  (∀ l u, u ∈ (s.data_deps.lookup l).getD [] → u ∈ (t.data_deps.lookup l).getD []) ∧
  (∀ l r, r ∈ (s.control_deps.lookup l).getD [] → r ∈ (t.control_deps.lookup l).getD [])

theorem tag_append_inj (p a b : String) : p ++ a = p ++ b ↔ a = b := by
  constructor
  · intro h
    have h2 : p.data ++ a.data = p.data ++ b.data := by
      have := congrArg String.data h
      simpa [String.data_append] using this
    exact String.ext (List.append_cancel_left h2)
  · intro h; rw [h]

theorem write_tag_ne_read_tag (a b : String) : "write:" ++ a ≠ "read:" ++ b := by
  intro h
  have h2 : ("write:" ++ a).data = ("read:" ++ b).data := congrArg String.data h
  rw [String.data_append, String.data_append] at h2
  have h3 : 'w' :: ("rite:".data ++ a.data) = 'r' :: ("ead:".data ++ b.data) := h2
  exact absurd (List.head_eq_of_cons_eq h3) (by decide)

theorem mem_localKeys_iff {l : Locals} {v : String} :
    v ∈ localKeys l ↔ (l.lookup v).isSome := by
  rw [List.lookup_isSome_iff]
  simp only [localKeys, List.mem_map, beq_iff_eq]
  constructor
  · rintro ⟨p, hp, he⟩; exact ⟨p, hp, he.symm⟩
  · rintro ⟨p, hp, he⟩; exact ⟨p, hp, he.symm⟩

theorem lookup_of_mem_nodup :
    ∀ {l : Locals}, (localKeys l).Nodup → ∀ {p : String × Val}, p ∈ l →
      l.lookup p.1 = some p.2 := by
  intro l
  induction l with
  | nil => intro _ p hp; simp at hp
  | cons q es ih =>
    intro hnd p hp
    have hq : localKeys (q :: es) = q.1 :: localKeys es := rfl
    rw [hq, List.nodup_cons] at hnd
    rcases List.mem_cons.mp hp with he | ht
    · subst he
      obtain ⟨k, b⟩ := p
      simp [List.lookup_cons]
    · have hne : p.1 ≠ q.1 := by
        intro he
        exact hnd.1 (he ▸ List.mem_map_of_mem Prod.fst ht)
      obtain ⟨k, b⟩ := q
      rw [List.lookup_cons]
      have : (p.1 == k) = false := beq_eq_false_iff_ne.mpr hne
      rw [this]
      exact ih hnd.2 ht

/-- Membership of a `write:` tag in the detected access list, characterised:
a name is tagged written exactly when it is new or its value changed. -/
theorem write_tag_mem_detect (prev cur : Locals) (hc : (localKeys cur).Nodup) (v : String) :
    ("write:" ++ v) ∈ detect_memory_access prev cur ↔
      v ∈ localKeys cur ∧ (v ∉ localKeys prev ∨ prev.lookup v ≠ cur.lookup v) := by
  unfold detect_memory_access
  rw [List.mem_append]
  constructor
  · rintro (h | h)
    · rw [List.mem_filterMap] at h
      obtain ⟨p, hp, hcond⟩ := h
      by_cases h1 : p.1 ∉ localKeys prev
      · rw [if_pos h1] at hcond
        have hv : p.1 = v := (tag_append_inj _ _ _).mp (Option.some.inj hcond)
        subst hv
        exact ⟨List.mem_map_of_mem Prod.fst hp, Or.inl h1⟩
      · rw [if_neg h1] at hcond
        by_cases h2 : prev.lookup p.1 ≠ some p.2
        · rw [if_pos h2] at hcond
          have hv : p.1 = v := (tag_append_inj _ _ _).mp (Option.some.inj hcond)
          subst hv
          refine ⟨List.mem_map_of_mem Prod.fst hp, Or.inr ?_⟩
          rw [lookup_of_mem_nodup hc hp]
          exact h2
        · rw [if_neg h2] at hcond; exact absurd hcond (by simp)
    · rw [List.mem_filterMap] at h
      obtain ⟨p, hp, hcond⟩ := h
      split at hcond
      · exact absurd (Option.some.inj hcond).symm (write_tag_ne_read_tag v p.1)
      · exact absurd hcond (by simp)
  · rintro ⟨hvcur, hrest⟩
    left
    rw [List.mem_filterMap]
    simp only [localKeys, List.mem_map] at hvcur
    obtain ⟨p, hp, hfst⟩ := hvcur
    refine ⟨p, hp, ?_⟩
    subst hfst
    rcases hrest with h1 | h2
    · rw [if_pos h1]
    · by_cases h1 : p.1 ∉ localKeys prev
      · rw [if_pos h1]
      · rw [if_neg h1, if_pos]
        rw [lookup_of_mem_nodup hc hp] at h2
        exact h2

/-- Membership of a `read:` tag in the detected access list, characterised:
a name is tagged read exactly when it is present in both snapshots with an
unchanged value. -/
theorem read_tag_mem_detect (prev cur : Locals) (hp : (localKeys prev).Nodup) (v : String) :
    ("read:" ++ v) ∈ detect_memory_access prev cur ↔
      v ∈ localKeys prev ∧ v ∈ localKeys cur ∧ prev.lookup v = cur.lookup v := by
  unfold detect_memory_access
  rw [List.mem_append]
  constructor
  · rintro (h | h)
    · rw [List.mem_filterMap] at h
      obtain ⟨p, hpm, hcond⟩ := h
      split at hcond
      · exact absurd (Option.some.inj hcond) (write_tag_ne_read_tag p.1 v)
      · split at hcond
        · exact absurd (Option.some.inj hcond) (write_tag_ne_read_tag p.1 v)
        · exact absurd hcond (by simp)
    · rw [List.mem_filterMap] at h
      obtain ⟨p, hpm, hcond⟩ := h
      split at hcond
      · next hcnd =>
        have hv : p.1 = v := (tag_append_inj _ _ _).mp (Option.some.inj hcond)
        subst hv
        refine ⟨List.mem_map_of_mem Prod.fst hpm, hcnd.1, ?_⟩
        rw [lookup_of_mem_nodup hp hpm, hcnd.2]
      · exact absurd hcond (by simp)
  · rintro ⟨hvp, hvc, heq⟩
    right
    rw [List.mem_filterMap]
    simp only [localKeys, List.mem_map] at hvp
    obtain ⟨p, hpm, hfst⟩ := hvp
    refine ⟨p, hpm, ?_⟩
    subst hfst
    rw [if_pos]
    refine ⟨hvc, ?_⟩
    rw [← heq, lookup_of_mem_nodup hp hpm]

/-- C10: in any detected access list, no variable is tagged both written and
read; a name is tagged `write:` exactly when it is new or its value changed
relative to the previous snapshot, and tagged `read:` exactly when it is
present in both snapshots with an unchanged value. -/
theorem detect_memory_access_read_write_exclusive
    (prev cur : Locals) (hp : (localKeys prev).Nodup) (hc : (localKeys cur).Nodup)
    (v : String) :
    ¬(("write:" ++ v) ∈ detect_memory_access prev cur ∧
      ("read:" ++ v) ∈ detect_memory_access prev cur)
    ∧ (("write:" ++ v) ∈ detect_memory_access prev cur ↔
        v ∈ localKeys cur ∧ (v ∉ localKeys prev ∨ prev.lookup v ≠ cur.lookup v))
    ∧ (("read:" ++ v) ∈ detect_memory_access prev cur ↔
        v ∈ localKeys prev ∧ v ∈ localKeys cur ∧ prev.lookup v = cur.lookup v) := by
  refine ⟨?_, write_tag_mem_detect prev cur hc v, read_tag_mem_detect prev cur hp v⟩
  rintro ⟨hw, hr⟩
  rw [write_tag_mem_detect prev cur hc v] at hw
  rw [read_tag_mem_detect prev cur hp v] at hr
  rcases hw.2 with h1 | h2
  · exact h1 hr.1
  · exact h2 hr.2.2

/-- Witness for C10 at a concrete pair of snapshots. -/
theorem detect_memory_access_read_write_exclusive_witness :
    ¬(("write:" ++ "x") ∈ detect_memory_access prevLocalsDemo curLocalsDemo ∧
      ("read:" ++ "x") ∈ detect_memory_access prevLocalsDemo curLocalsDemo) :=
  (detect_memory_access_read_write_exclusive prevLocalsDemo curLocalsDemo
    (by decide) (by decide) "x").1

/-- C3 counterexample: on a trace that visits line 5 twice,
`get_executed_lines` returns `[5, 5]`, so the location 5 appears twice —
the returned list is not distinct, refuting the claim as stated. -/
theorem get_executed_lines_not_distinct :
    get_executed_lines dupLineTrace = [5, 5] ∧
    ¬ (get_executed_lines dupLineTrace).Nodup := by
  constructor
  · rfl
  · rw [show get_executed_lines dupLineTrace = [5, 5] from rfl]
    decide

/-- C3 (amended): `get_executed_lines` preserves event order (it is a
sublist of the full line-number projection of the trace), contains one
entry per `'line'` event, and a location occurs in it exactly when some
`'line'` event visits it — but locations may repeat. -/
theorem get_executed_lines_spec (log : List TraceEvent) :
    (get_executed_lines log).Sublist (log.map fun e => e.line_number)
    ∧ (get_executed_lines log).length =
        (log.filter fun e => e.event_type == "line").length
    ∧ ∀ n : Nat, n ∈ get_executed_lines log ↔
        ∃ e ∈ log, e.event_type = "line" ∧ e.line_number = n := by
  refine ⟨List.Sublist.map _ (List.filter_sublist log), by
    simp [get_executed_lines], ?_⟩
  intro n
  simp only [get_executed_lines, List.mem_map, List.mem_filter, beq_iff_eq]
  constructor
  · rintro ⟨e, ⟨he, ht⟩, hn⟩; exact ⟨e, he, ht, hn⟩
  · rintro ⟨e, he, ht, hn⟩; exact ⟨e, ⟨he, ht⟩, hn⟩

theorem compute_tarantula_eq (fc tf pc tp : ℕ) (h : tf ≠ 0) :
    compute_tarantula fc tf pc tp =
      if (pc : ℚ) / tp + (fc : ℚ) / tf = 0 then 0
      else ((fc : ℚ) / tf) / ((pc : ℚ) / tp + (fc : ℚ) / tf) := by
  unfold compute_tarantula
  rw [if_neg h, if_pos (Nat.pos_of_ne_zero h)]
  rcases Nat.eq_zero_or_pos tp with h0 | hpos
  · subst h0
    norm_num
  · rw [if_pos hpos]

/-- C2: the Tarantula score equals
`(failed/totalFailed) / ((failed/totalFailed) + (passed/totalPassed))`,
is `0` when that denominator is `0` or `totalFailed` is `0`, and a
statement covered by every test of a batch with at least one failing and
at least one passing test scores exactly `1/2`. -/
theorem compute_tarantula_spec (fc tf pc tp : ℕ) :
    (tf ≠ 0 → (fc : ℚ) / tf + (pc : ℚ) / tp ≠ 0 →
      compute_tarantula fc tf pc tp = ((fc : ℚ) / tf) / ((fc : ℚ) / tf + (pc : ℚ) / tp))
    ∧ (tf = 0 ∨ (fc : ℚ) / tf + (pc : ℚ) / tp = 0 → compute_tarantula fc tf pc tp = 0)
    ∧ (fc = tf → pc = tp → 0 < tf → 0 < tp → compute_tarantula fc tf pc tp = 1 / 2) := by
  refine ⟨?_, ?_, ?_⟩
  · intro h hd
    rw [compute_tarantula_eq fc tf pc tp h, if_neg (by rw [add_comm]; exact hd), add_comm]
  · rintro (h | h)
    · unfold compute_tarantula; rw [if_pos h]
    · by_cases h0 : tf = 0
      · unfold compute_tarantula; rw [if_pos h0]
      · rw [compute_tarantula_eq fc tf pc tp h0, if_pos (by rw [add_comm]; exact h)]
  · intro hf hp htf htp
    have h0 : tf ≠ 0 := Nat.pos_iff_ne_zero.mp htf
    have h1 : ((tf : ℚ)) ≠ 0 := Nat.cast_ne_zero.mpr h0
    have h2 : ((tp : ℚ)) ≠ 0 := Nat.cast_ne_zero.mpr (Nat.pos_iff_ne_zero.mp htp)
    rw [compute_tarantula_eq fc tf pc tp h0, hf, hp, div_self h2, div_self h1]
    norm_num

/-- Witness for C2 at concrete counters: the degenerate always-covered
statement scores `1/2`, a batch with no failures scores `0`, and the
general formula is exercised at `(1, 2, 1, 2)`. -/
theorem compute_tarantula_spec_witness :
    compute_tarantula 1 1 1 1 = 1 / 2 ∧ compute_tarantula 2 0 3 4 = 0 ∧
    compute_tarantula 1 2 1 2 = 1 / 2 := by
  refine ⟨(compute_tarantula_spec 1 1 1 1).2.2 rfl rfl Nat.one_pos Nat.one_pos,
          (compute_tarantula_spec 2 0 3 4).2.1 (Or.inl rfl), ?_⟩
  have h := (compute_tarantula_spec 1 2 1 2).1 (by norm_num) (by norm_num)
  rw [h]
  norm_num


theorem counterLookup_cons_self (m : List ((List String × Nat) × Nat))
    (k : List String × Nat) (v : Nat) : counterLookup ((k, v) :: m) k = v := by
  simp [counterLookup, List.lookup_cons]

theorem counterLookup_cons_ne (m : List ((List String × Nat) × Nat))
    (k k' : List String × Nat) (v : Nat) (h : k' ≠ k) :
    counterLookup ((k, v) :: m) k' = counterLookup m k' := by
  simp only [counterLookup, List.lookup_cons]
  rw [show (k' == k) = false from beq_eq_false_iff_ne.mpr h]

theorem runOps_invariant (c : List String) (l : Nat) :
    ∀ (ops : List IndexerOp) (s : ExecutionIndexer),
      counterLookup s.instance_counters (c, l) =
        (matchingInstances s c l).length →
      matchingInstances s c l =
        List.range' 1 (counterLookup s.instance_counters (c, l)) →
      matchingInstances (runOps s ops) c l =
        List.range' 1
          (counterAfter ops s.context_stack (counterLookup s.instance_counters (c, l)) (c, l)) := by
  intro ops
  induction ops with
  | nil => intro s _ h2; exact h2
  | cons op ops ih =>
    intro s h1 h2
    cases op with
    | push f => exact ih (push_context s f) h1 h2
    | pop => exact ih (pop_context s) h1 h2
    | reset =>
      have h0 : counterLookup (ExecutionIndexer.reset s).instance_counters (c, l) = 0 := rfl
      have := ih (ExecutionIndexer.reset s) (by rw [h0]; rfl) (by rw [h0]; rfl)
      rw [h0] at this
      exact this
    | record n =>
      by_cases hk : (s.context_stack, n) = (c, l)
      · have hc : s.context_stack = c := congrArg Prod.fst hk
        have hl : n = l := congrArg Prod.snd hk
        subst hc; subst hl
        have hcnt : counterLookup (record_execution s n).1.instance_counters
            (s.context_stack, n) = counterLookup s.instance_counters (s.context_stack, n) + 1 :=
          counterLookup_cons_self _ _ _
        have hmt : matchingInstances (record_execution s n).1 s.context_stack n =
            matchingInstances s s.context_stack n ++
              [counterLookup s.instance_counters (s.context_stack, n) + 1] := by
          simp [matchingInstances, record_execution, List.filter_append]
        have h1' : counterLookup (record_execution s n).1.instance_counters (s.context_stack, n) =
            (matchingInstances (record_execution s n).1 s.context_stack n).length := by
          rw [hcnt, hmt, List.length_append, ← h1]
          simp
        have h2' : matchingInstances (record_execution s n).1 s.context_stack n =
            List.range' 1 (counterLookup (record_execution s n).1.instance_counters
              (s.context_stack, n)) := by
          rw [hcnt, hmt, h2]
          have hr := List.range'_append_1 1
            (counterLookup s.instance_counters (s.context_stack, n)) 1
          simpa [Nat.add_comm] using hr
        have := ih (record_execution s n).1 h1' h2'
        rw [hcnt] at this
        rw [show (record_execution s n).1.context_stack = s.context_stack from rfl] at this
        simp only [runOps, counterAfter, if_pos rfl]
        exact this
      · have hcnt : counterLookup (record_execution s n).1.instance_counters (c, l) =
            counterLookup s.instance_counters (c, l) :=
          counterLookup_cons_ne _ _ _ _ (fun h => hk h.symm)
        have hnm : (s.context_stack == c && (n == l : Bool)) = false := by
          by_cases hcg : s.context_stack = c
          · have hln : n ≠ l := fun hlg => hk (by rw [hcg, hlg])
            simp [hln]
          · simp [hcg]
        have hmt : matchingInstances (record_execution s n).1 c l =
            matchingInstances s c l := by
          simp only [matchingInstances, record_execution, List.filter_append,
            List.map_append]
          simp [List.filter_cons, hnm]
        have := ih (record_execution s n).1 (by rw [hcnt, hmt]; exact h1)
          (by rw [hcnt, hmt]; exact h2)
        rw [hcnt] at this
        rw [show (record_execution s n).1.context_stack = s.context_stack from rfl] at this
        simp only [runOps, counterAfter, if_neg hk]
        exact this

/-- C5: for any fixed `(context, statement)` pair and any client call
sequence, the instances handed out to that pair since the last `reset` are
exactly `1, 2, ..., k` in order — the n-th matching `record_execution` call
returns instance `n` — and a `record_execution` issued directly after a
`reset` always returns instance `1`. -/
theorem record_execution_instance_spec (ops : List IndexerOp) (c : List String) (l : Nat) :
    matchingInstances (runOps ExecutionIndexer.init ops) c l =
      List.range' 1 (counterAfter ops [] 0 (c, l))
    ∧ ∀ s : ExecutionIndexer,
        (record_execution (ExecutionIndexer.reset s) l).2.inst = 1 := by
  constructor
  · have := runOps_invariant c l ops ExecutionIndexer.init rfl rfl
    exact this
  · intro s; rfl

theorem trace_execution_parts (t : TracerState) (sys : SysState) (b : CallBehavior) :
    (trace_execution t sys b).1 = b.outcome ∧
    (trace_execution t sys b).2.1.trace_log = b.events ∧
    (trace_execution t sys b).2.1.is_tracing = false ∧
    (trace_execution t sys b).2.2.hook_installed = false := by
  cases hb : b.outcome <;> simp [trace_execution, start_trace, stop_trace, hb]

/-- C4: `trace_execution` removes the process-wide hook on every exit path;
when the callable raises, the partial trace recorded up to the exception is
retained in the trace log and the original exception is surfaced to the
caller. -/
theorem trace_execution_releases_hook (t : TracerState) (sys : SysState) (b : CallBehavior) :
    ((trace_execution t sys b).2.2.hook_installed = false)
    ∧ ((trace_execution t sys b).2.1.trace_log = b.events)
    ∧ (∀ e, b.outcome = Except.error e →
        (trace_execution t sys b).1 = Except.error e) := by
  refine ⟨(trace_execution_parts t sys b).2.2.2, (trace_execution_parts t sys b).2.1, ?_⟩
  intro e he
  rw [(trace_execution_parts t sys b).1, he]

/-- A raising invocation with one recorded step, as concrete input. -/
def raisingBehavior : CallBehavior := ⟨[lineEventAt 7], Except.error "boom"⟩

/-- Witness for C4 at a concrete raising invocation. -/
theorem trace_execution_releases_hook_witness :
    (trace_execution ⟨[], [], false⟩ ⟨true⟩ raisingBehavior).2.2.hook_installed = false
    ∧ (trace_execution ⟨[], [], false⟩ ⟨true⟩ raisingBehavior).2.1.trace_log = [lineEventAt 7]
    ∧ (trace_execution ⟨[], [], false⟩ ⟨true⟩ raisingBehavior).1 = Except.error "boom" :=
  ⟨(trace_execution_releases_hook ⟨[], [], false⟩ ⟨true⟩ raisingBehavior).1,
   (trace_execution_releases_hook ⟨[], [], false⟩ ⟨true⟩ raisingBehavior).2.1,
   (trace_execution_releases_hook ⟨[], [], false⟩ ⟨true⟩ raisingBehavior).2.2 "boom" rfl⟩

theorem trace_with_indexing_from_parts (log : List TraceEvent) :
    ∀ idx : ExecutionIndexer,
      (trace_with_indexing_from idx log).length = log.length ∧
      (trace_with_indexing_from idx log).map Prod.fst = log := by
  induction log with
  | nil => intro idx; exact ⟨rfl, rfl⟩
  | cons e rest ih =>
    intro idx
    simp only [trace_with_indexing_from, List.length_cons, List.map_cons]
    exact ⟨by rw [(ih _).1], by rw [(ih _).2]⟩

/-- C6: the indexed trace built from a recorded trace has exactly the
length of the input trace, and projecting each pair to its trace-event
component, in order, reconstructs the original trace. -/
theorem trace_with_indexing_roundtrip (trace_log : List TraceEvent) :
    (trace_with_indexing trace_log).length = trace_log.length ∧
    (trace_with_indexing trace_log).map Prod.fst = trace_log :=
  trace_with_indexing_from_parts trace_log ExecutionIndexer.init

/-- C8: every registered test is processed in order (the batch result has
one entry per input test, so a raising test never aborts the run or lets
the exception escape), and a test whose invocation raises gets the error
text captured as its actual output and is marked failed. -/
theorem run_tests_isolates_failures (target : List Val → CallBehavior) (tests : List TestCase) :
    (run_tests target tests).length = tests.length
    ∧ (∀ i : Nat, (run_tests target tests)[i]? = (tests[i]?).map (run_one_test target))
    ∧ ∀ tc ∈ tests, ∀ e, (target tc.input_args).outcome = Except.error e →
        (run_one_test target tc).passed = false
        ∧ (run_one_test target tc).actual_output = some (Val.strV ("Exception: " ++ e))
        ∧ (run_one_test target tc).covered_lines = tc.covered_lines := by
  refine ⟨?_, ?_, ?_⟩
  · induction tests with
    | nil => rfl
    | cons tc rest ih => simp [run_tests, ih]
  · intro i
    induction tests generalizing i with
    | nil => simp [run_tests]
    | cons tc rest ih =>
      cases i with
      | zero => simp [run_tests]
      | succ j => simpa [run_tests] using ih j
  · intro tc _ e he
    have h1 : (trace_execution ⟨[], [], false⟩ ⟨false⟩ (target tc.input_args)).1 =
        Except.error e := by
      rw [(trace_execution_parts _ _ _).1, he]
    simp [run_one_test, h1]

/-- A target that raises on every input, as concrete input. -/
def failingTarget : List Val → CallBehavior := fun _ => ⟨[], Except.error "div"⟩

def demoTest : TestCase := add_test_case "t1" [Val.intV 1] (Val.intV 2)

/-- Witness for C8 at a concrete raising target. -/
theorem run_tests_isolates_failures_witness :
    (run_tests failingTarget [demoTest]).length = 1
    ∧ (run_one_test failingTarget demoTest).passed = false
    ∧ (run_one_test failingTarget demoTest).actual_output =
        some (Val.strV ("Exception: " ++ "div")) := by
  refine ⟨(run_tests_isolates_failures failingTarget [demoTest]).1, ?_, ?_⟩
  · exact ((run_tests_isolates_failures failingTarget [demoTest]).2.2 demoTest
      (by simp) "div" rfl).1
  · exact ((run_tests_isolates_failures failingTarget [demoTest]).2.2 demoTest
      (by simp) "div" rfl).2.1

theorem mem_setAdd_iff {α : Type} [DecidableEq α] {s : List α} {a x : α} :
    x ∈ setAdd s a ↔ x ∈ s ∨ x = a := by
  unfold setAdd
  by_cases h : a ∈ s
  · rw [if_pos h]
    constructor
    · exact Or.inl
    · rintro (hx | rfl)
      · exact hx
      · exact h
  · rw [if_neg h]
    simp [List.mem_append]

theorem mem_setAdd_self {α : Type} [DecidableEq α] (s : List α) (a : α) :
    a ∈ setAdd s a := mem_setAdd_iff.mpr (Or.inr rfl)

theorem mem_setAdd_of_mem {α : Type} [DecidableEq α] {s : List α} {x : α} (a : α)
    (h : x ∈ s) : x ∈ setAdd s a := mem_setAdd_iff.mpr (Or.inl h)

theorem mem_setUnion_left {α : Type} [DecidableEq α] {s : List α} (t : List α) {x : α}
    (h : x ∈ s) : x ∈ setUnion s t := by
  induction t generalizing s with
  | nil => exact h
  | cons b rest ih => exact ih (mem_setAdd_of_mem b h)

theorem mem_setUnion_right {α : Type} [DecidableEq α] (s : List α) {t : List α} {x : α}
    (h : x ∈ t) : x ∈ setUnion s t := by
  induction t generalizing s with
  | nil => simp at h
  | cons b rest ih =>
    rcases List.mem_cons.mp h with rfl | ht
    · exact mem_setUnion_left rest (mem_setAdd_self s x)
    · exact ih (setAdd s b) ht

theorem depsAdd_lookup_self (m : List (Nat × List String)) (line : Nat) (used : List String) :
    ((depsAdd m line used).lookup line).getD [] =
      setUnion ((m.lookup line).getD []) used := by
  simp [depsAdd]

theorem depsAdd_lookup_ne (m : List (Nat × List String)) (line l : Nat) (used : List String)
    (h : l ≠ line) : (depsAdd m line used).lookup l = m.lookup l := by
  simp only [depsAdd, List.lookup_cons]
  rw [show (l == line) = false from beq_eq_false_iff_ne.mpr h]

theorem controlAdd_lookup_mono (m : List (Nat × List Nat)) (key line l r : Nat)
    (h : r ∈ (m.lookup l).getD []) : r ∈ ((controlAdd m key line).lookup l).getD [] := by
  by_cases hl : l = key
  · subst hl
    simp only [controlAdd, List.lookup_cons_self, Option.getD_some]
    exact mem_setAdd_of_mem line h
  · simp only [controlAdd, List.lookup_cons]
    rw [show (l == key) = false from beq_eq_false_iff_ne.mpr hl]
    exact h

theorem addControlDeps_lookup_mono :
    ∀ (rl : List Nat) (m : List (Nat × List Nat)) (line l r : Nat),
      r ∈ (m.lookup l).getD [] → r ∈ ((addControlDeps m rl line).lookup l).getD [] := by
  intro rl
  induction rl with
  | nil => intro m line l r h; exact h
  | cons q rest ih =>
    intro m line l r h
    simp only [addControlDeps]
    split
    · exact ih _ line l r (controlAdd_lookup_mono m q line l r h)
    · exact ih _ line l r h

theorem stateLe_refl (s : SlicerState) : stateLe s s :=
  ⟨fun _ h => h, fun _ h => h, fun _ _ h => h, fun _ _ h => h⟩

theorem stateLe_trans {s t u : SlicerState} (h1 : stateLe s t) (h2 : stateLe t u) :
    stateLe s u :=
  ⟨fun l h => h2.1 l (h1.1 l h), fun v h => h2.2.1 v (h1.2.1 v h),
   fun l x h => h2.2.2.1 l x (h1.2.2.1 l x h),
   fun l x h => h2.2.2.2 l x (h1.2.2.2 l x h)⟩

theorem stateLe_writeStep (s : SlicerState) (line : Nat) (used : List String) :
    stateLe s
      ⟨setAdd s.relevant_lines line, setUnion s.variables_of_interest used,
       depsAdd s.data_deps line used, s.control_deps⟩ := by
  refine ⟨fun l h => mem_setAdd_of_mem line h, fun v h => mem_setUnion_left used h,
    ?_, fun l r h => h⟩
  intro l u h
  by_cases hl : l = line
  · subst hl
    rw [depsAdd_lookup_self]
    exact mem_setUnion_left used h
  · rw [depsAdd_lookup_ne _ _ _ _ hl]
    exact h

theorem processWrites_mono (line : Nat) (event : TraceEvent) :
    ∀ (vars : List String) (s : SlicerState), stateLe s (processWrites line event s vars) := by
  intro vars
  induction vars with
  | nil => intro s; exact stateLe_refl s
  | cons var rest ih =>
    intro s
    simp only [processWrites]
    split
    · exact stateLe_trans
        (stateLe_writeStep s line (extract_used_variables event var)) (ih _)
    · exact ih s

theorem processControl_eq_of_pos (line : Nat) (event : TraceEvent) (s : SlicerState)
    (h1 : is_control_statement event)
    (h2 : (extract_control_variables event).any fun v => s.variables_of_interest.contains v) :
    processControl line event s =
      { relevant_lines := setAdd s.relevant_lines line
        variables_of_interest := s.variables_of_interest
        data_deps := s.data_deps
        control_deps :=
          addControlDeps s.control_deps (setAdd s.relevant_lines line) line } := by
  simp only [processControl]
  rw [h1, h2]
  rfl

theorem processControl_mono (line : Nat) (event : TraceEvent) (s : SlicerState) :
    stateLe s (processControl line event s) := by
  by_cases h1 : is_control_statement event
  · by_cases h2 :
      (extract_control_variables event).any fun v => s.variables_of_interest.contains v
    · rw [processControl_eq_of_pos line event s h1 h2]
      exact ⟨fun l h => mem_setAdd_of_mem line h, fun v h => h, fun l u h => h,
        fun l r h => addControlDeps_lookup_mono _ _ _ _ _ h⟩
    · have hb : ((extract_control_variables event).any
          fun v => s.variables_of_interest.contains v) = false := by
        cases hbv : ((extract_control_variables event).any
          fun v => s.variables_of_interest.contains v)
        · rfl
        · exact absurd hbv h2
      have he : processControl line event s = s := by
        simp only [processControl]
        rw [h1, hb]
        rfl
      rw [he]; exact stateLe_refl s
  · have hb1 : is_control_statement event = false := by
      cases hbv : is_control_statement event
      · rfl
      · exact absurd hbv h1
    have he : processControl line event s = s := by
      simp only [processControl]
      rw [hb1]
      rfl
    rw [he]; exact stateLe_refl s

theorem processEvent_mono (s : SlicerState) (event : TraceEvent) :
    stateLe s (processEvent s event) :=
  stateLe_trans (processWrites_mono event.line_number event (get_affected_variables event) s)
    (processControl_mono event.line_number event _)

theorem foldl_processEvent_mono :
    ∀ (evs : List TraceEvent) (s : SlicerState), stateLe s (evs.foldl processEvent s) := by
  intro evs
  induction evs with
  | nil => intro s; exact stateLe_refl s
  | cons e rest ih =>
    intro s
    exact stateLe_trans (processEvent_mono s e) (ih (processEvent s e))

theorem processWrites_step (line : Nat) (event : TraceEvent) :
    ∀ (vars : List String) (s : SlicerState) (v : String),
      v ∈ vars → v ∈ s.variables_of_interest →
      line ∈ (processWrites line event s vars).relevant_lines ∧
      ∀ u ∈ extract_used_variables event v,
        u ∈ ((processWrites line event s vars).data_deps.lookup line).getD [] ∧
        u ∈ (processWrites line event s vars).variables_of_interest := by
  intro vars
  induction vars with
  | nil => intro s v hv; simp at hv
  | cons var rest ih =>
    intro s v hv hint
    rcases List.mem_cons.mp hv with rfl | hvrest
    · simp only [processWrites, if_pos hint]
      have hle := processWrites_mono line event rest
        ⟨setAdd s.relevant_lines line,
         setUnion s.variables_of_interest (extract_used_variables event v),
         depsAdd s.data_deps line (extract_used_variables event v),
         s.control_deps⟩
      refine ⟨hle.1 line (mem_setAdd_self s.relevant_lines line), ?_⟩
      intro u hu
      constructor
      · refine hle.2.2.1 line u ?_
        rw [depsAdd_lookup_self]
        exact mem_setUnion_right _ hu
      · exact hle.2.1 u (mem_setUnion_right _ hu)
    · simp only [processWrites]
      split
      · exact ih _ v hvrest
          (mem_setUnion_left (extract_used_variables event var) hint)
      · exact ih s v hvrest hint

theorem processEvent_write_step (s : SlicerState) (event : TraceEvent) (v : String)
    (hv : v ∈ get_affected_variables event) (hint : v ∈ s.variables_of_interest) :
    event.line_number ∈ (processEvent s event).relevant_lines ∧
    ∀ u ∈ extract_used_variables event v,
      u ∈ ((processEvent s event).data_deps.lookup event.line_number).getD [] ∧
      u ∈ (processEvent s event).variables_of_interest := by
  have hw := processWrites_step event.line_number event (get_affected_variables event) s v
    hv hint
  have hle := processControl_mono event.line_number event
    (processWrites event.line_number event s (get_affected_variables event))
  refine ⟨hle.1 _ hw.1, ?_⟩
  intro u hu
  exact ⟨hle.2.2.1 _ _ ((hw.2 u hu).1), hle.2.1 _ ((hw.2 u hu).2)⟩

/-- C1: during the backward traversal (which folds the loop body over the
reversed trace prefix ending at `start_idx`), consider the `j`-th processed
event — trace index `start_idx - j`. For every name `v` tagged `Write` in
that event's accesses that is in the variables-of-interest set current at
that step (the state after the first `j` processed events), the event's
line is in the final relevant set, the event's `Read`-tagged local names
other than `v` and `__`-prefixed names are recorded under that line in the
final data-dependency map, and those names are in the final
variables-of-interest set. -/
theorem backward_traverse_write_step (trace : List TraceEvent) (start_idx : Nat)
    (s0 : SlicerState) (j : Nat)
    (hj : j < ((trace.take (start_idx + 1)).reverse).length) (v : String)
    (hv : v ∈ get_affected_variables (((trace.take (start_idx + 1)).reverse).get ⟨j, hj⟩))
    (hint : v ∈ ((((trace.take (start_idx + 1)).reverse).take j).foldl processEvent
      s0).variables_of_interest) :
    (((trace.take (start_idx + 1)).reverse).get ⟨j, hj⟩).line_number ∈
      (backward_traverse s0 trace start_idx).relevant_lines
    ∧ ∀ u ∈ extract_used_variables (((trace.take (start_idx + 1)).reverse).get ⟨j, hj⟩) v,
        u ∈ ((backward_traverse s0 trace start_idx).data_deps.lookup
          (((trace.take (start_idx + 1)).reverse).get ⟨j, hj⟩).line_number).getD []
        ∧ u ∈ (backward_traverse s0 trace start_idx).variables_of_interest := by
  set evs := (trace.take (start_idx + 1)).reverse with hevs
  set e := evs.get ⟨j, hj⟩ with he
  set pre := (evs.take j).foldl processEvent s0 with hpre
  have hsplit : backward_traverse s0 trace start_idx =
      (evs.drop (j + 1)).foldl processEvent (processEvent pre e) := by
    rw [backward_traverse, ← hevs]
    conv_lhs => rw [← List.take_append_drop j evs]
    rw [List.foldl_append, ← hpre]
    rw [List.drop_eq_getElem_cons hj]
    rw [List.foldl_cons]
    rfl
  have hstep := processEvent_write_step pre e v hv hint
  have hle := foldl_processEvent_mono (evs.drop (j + 1)) (processEvent pre e)
  rw [hsplit]
  refine ⟨hle.1 _ hstep.1, ?_⟩
  intro u hu
  exact ⟨hle.2.2.1 _ _ ((hstep.2 u hu).1), hle.2.1 _ ((hstep.2 u hu).2)⟩

/-- Witness for C1 on the demo trace: the first processed event (line 3,
which writes `d`) marks line 3 relevant and records the read name `a` as
a data dependency of line 3 and as a new variable of interest. -/
theorem backward_traverse_write_step_witness :
    (3 ∈ (backward_traverse ⟨[], ["d"], [], []⟩ sliceDemoTrace 1).relevant_lines)
    ∧ "a" ∈ ((backward_traverse ⟨[], ["d"], [], []⟩ sliceDemoTrace 1).data_deps.lookup
        3).getD []
    ∧ "a" ∈ (backward_traverse ⟨[], ["d"], [], []⟩ sliceDemoTrace 1).variables_of_interest := by
  have h := backward_traverse_write_step sliceDemoTrace 1 ⟨[], ["d"], [], []⟩ 0
    (by decide) "d" (by decide) (by decide)
  exact ⟨h.1, (h.2 "a" (by decide)).1, (h.2 "a" (by decide)).2⟩

theorem find?_reverse_range (n : Nat) (p : Nat → Bool) :
    ((List.range n).reverse.find? p = none → ∀ i, i < n → p i = false)
    ∧ (∀ i, (List.range n).reverse.find? p = some i →
        p i = true ∧ i < n ∧ ∀ j, i < j → j < n → p j = false) := by
  induction n with
  | zero =>
    constructor
    · intro _ i hi; exact absurd hi (Nat.not_lt_zero i)
    · intro i h; simp [List.range_zero] at h
  | succ m ih =>
    have hrev : (List.range (m + 1)).reverse = m :: (List.range m).reverse := by
      rw [List.range_succ, List.reverse_append]
      rfl
    constructor
    · intro hnone i hi
      rw [hrev] at hnone
      by_cases hpm : p m = true
      · rw [List.find?_cons_of_pos _ hpm] at hnone
        exact absurd hnone (by simp)
      · have hpmf : p m = false := by
          cases hb : p m
          · rfl
          · exact absurd hb hpm
        rw [List.find?_cons_of_neg _ (by simpa using hpm)] at hnone
        rcases Nat.lt_succ_iff_lt_or_eq.mp hi with hlt | rfl
        · exact ih.1 hnone i hlt
        · exact hpmf
    · intro i hsome
      rw [hrev] at hsome
      by_cases hpm : p m = true
      · rw [List.find?_cons_of_pos _ hpm] at hsome
        have hmi : m = i := by injection hsome
        subst hmi
        refine ⟨hpm, Nat.lt_succ_self m, ?_⟩
        intro j hij hjm
        exact absurd hjm (by omega)
      · have hpmf : p m = false := by
          cases hb : p m
          · rfl
          · exact absurd hb hpm
        rw [List.find?_cons_of_neg _ (by simpa using hpm)] at hsome
        obtain ⟨hp, hi, hmax⟩ := ih.2 i hsome
        refine ⟨hp, Nat.lt_succ_of_lt hi, ?_⟩
        intro j hij hjm
        rcases Nat.lt_succ_iff_lt_or_eq.mp hjm with hlt | rfl
        · exact hmax j hij hlt
        · exact hpmf

theorem target_pred_iff (trace : List TraceEvent) (tl : Nat) (tv : String) (i : Nat)
    (hi : i < trace.length) :
    ((match (trace)[i]? with
      | some event =>
          event.line_number == tl && (localKeys event.local_vars).contains tv
      | none => false) = true)
    ↔ ((trace.get ⟨i, hi⟩).line_number = tl ∧
        tv ∈ localKeys (trace.get ⟨i, hi⟩).local_vars) := by
  rw [List.getElem?_eq_getElem hi]
  simp [List.get_eq_getElem]

/-- C7: if no event of the trace is at the target statement with the
target variable in scope, the slice is the empty `SliceResult` (the
non-fatal not-found outcome; the function is total, so no error is
possible); otherwise `find_target_event` returns the *last* index whose
event matches, and the result is the backward traversal started there. -/
theorem compute_dynamic_slice_not_found (trace : List TraceEvent) (tl : Nat) (tv : String) :
    ((∀ e ∈ trace, ¬(e.line_number = tl ∧ tv ∈ localKeys e.local_vars)) →
      compute_dynamic_slice trace tl tv = ⟨tl, tv, [], [], []⟩)
    ∧ (∀ i, find_target_event trace tl tv = some i →
        ∃ hi : i < trace.length,
          ((trace.get ⟨i, hi⟩).line_number = tl ∧
            tv ∈ localKeys (trace.get ⟨i, hi⟩).local_vars)
          ∧ ∀ j (hj : j < trace.length), i < j →
              ¬((trace.get ⟨j, hj⟩).line_number = tl ∧
                tv ∈ localKeys (trace.get ⟨j, hj⟩).local_vars))
    ∧ ((∃ e ∈ trace, e.line_number = tl ∧ tv ∈ localKeys e.local_vars) →
        ∃ i, find_target_event trace tl tv = some i ∧
          compute_dynamic_slice trace tl tv =
            ⟨tl, tv, (backward_traverse ⟨[], [tv], [], []⟩ trace i).relevant_lines,
             (backward_traverse ⟨[], [tv], [], []⟩ trace i).data_deps,
             (backward_traverse ⟨[], [tv], [], []⟩ trace i).control_deps⟩) := by
  refine ⟨?_, ?_, ?_⟩
  · intro h
    have hfind : find_target_event trace tl tv = none := by
      apply List.find?_eq_none.mpr
      intro x hx
      have hxlt : x < trace.length := by
        rw [List.mem_reverse, List.mem_range] at hx
        exact hx
      intro hpx
      have := (target_pred_iff trace tl tv x hxlt).mp hpx
      exact h (trace.get ⟨x, hxlt⟩) (trace.get_mem _ _) this
    simp only [compute_dynamic_slice]
    rw [hfind]
  · intro i hsome
    obtain ⟨hp, hi, hmax⟩ := (find?_reverse_range trace.length _).2 i hsome
    refine ⟨hi, (target_pred_iff trace tl tv i hi).mp hp, ?_⟩
    intro j hj hij hPj
    have := (target_pred_iff trace tl tv j hj).mpr hPj
    rw [hmax j hij hj] at this
    exact Bool.false_ne_true this
  · intro hex
    obtain ⟨e, hmem, hP⟩ := hex
    obtain ⟨k, hk⟩ := List.get_of_mem hmem
    cases hfind : find_target_event trace tl tv with
    | none =>
      have hall := (find?_reverse_range trace.length _).1 hfind
      have hpk : (match (trace)[(k : Nat)]? with
          | some event =>
              event.line_number == tl && (localKeys event.local_vars).contains tv
          | none => false) = true := by
        apply (target_pred_iff trace tl tv k k.isLt).mpr
        rw [hk]
        exact hP
      rw [hall k k.isLt] at hpk
      exact absurd hpk Bool.false_ne_true
    | some i =>
      refine ⟨i, rfl, ?_⟩
      simp only [compute_dynamic_slice]
      rw [hfind]

/-- Witness for C7: a query never observed yields the empty result, and
the demo query `d @ line 3` resolves through `find_target_event`. -/
theorem compute_dynamic_slice_not_found_witness :
    compute_dynamic_slice [sliceEvent1] 9 "q" = ⟨9, "q", [], [], []⟩
    ∧ ∃ i, find_target_event sliceDemoTrace 3 "d" = some i ∧
        compute_dynamic_slice sliceDemoTrace 3 "d" =
          ⟨3, "d", (backward_traverse ⟨[], ["d"], [], []⟩ sliceDemoTrace i).relevant_lines,
           (backward_traverse ⟨[], ["d"], [], []⟩ sliceDemoTrace i).data_deps,
           (backward_traverse ⟨[], ["d"], [], []⟩ sliceDemoTrace i).control_deps⟩ := by
  constructor
  · exact (compute_dynamic_slice_not_found [sliceEvent1] 9 "q").1 (by decide)
  · exact (compute_dynamic_slice_not_found sliceDemoTrace 3 "d").2.2
      ⟨sliceEvent2, by decide, by decide, by decide⟩

theorem processControl_eq_of_not_control (line : Nat) (event : TraceEvent) (s : SlicerState)
    (h1 : is_control_statement event = false) : processControl line event s = s := by
  simp only [processControl]
  rw [h1]
  rfl

theorem processControl_eq_of_no_inter (line : Nat) (event : TraceEvent) (s : SlicerState)
    (h2 : ((extract_control_variables event).any
      fun v => s.variables_of_interest.contains v) = false) :
    processControl line event s = s := by
  simp only [processControl]
  rw [h2]
  cases hb : is_control_statement event <;> rfl

theorem addControlDeps_keys :
    ∀ (rl : List Nat) (m : List (Nat × List Nat)) (line k : Nat),
      k ∈ (addControlDeps m rl line).map Prod.fst → k ∈ m.map Prod.fst ∨ k ∈ rl := by
  intro rl
  induction rl with
  | nil => intro m line k h; exact Or.inl h
  | cons q rest ih =>
    intro m line k h
    simp only [addControlDeps] at h
    rcases ih _ line k h with hm | hr
    · by_cases hq : line < q
      · rw [if_pos hq] at hm
        simp only [controlAdd, List.map_cons] at hm
        rcases List.mem_cons.mp hm with rfl | hm2
        · exact Or.inr (List.mem_cons_self k rest)
        · exact Or.inl hm2
      · rw [if_neg hq] at hm
        exact Or.inl hm
    · exact Or.inr (List.mem_cons_of_mem q hr)

theorem processWrites_keys (line : Nat) (event : TraceEvent) :
    ∀ (vars : List String) (s : SlicerState),
      (∀ l, l ∈ s.data_deps.map Prod.fst → l ∈ s.relevant_lines) →
      (∀ l, l ∈ s.control_deps.map Prod.fst → l ∈ s.relevant_lines) →
      (∀ l, l ∈ (processWrites line event s vars).data_deps.map Prod.fst →
         l ∈ (processWrites line event s vars).relevant_lines) ∧
      (∀ l, l ∈ (processWrites line event s vars).control_deps.map Prod.fst →
         l ∈ (processWrites line event s vars).relevant_lines) := by
  intro vars
  induction vars with
  | nil => intro s h1 h2; exact ⟨h1, h2⟩
  | cons var rest ih =>
    intro s h1 h2
    simp only [processWrites]
    split
    · apply ih
      · intro l hl
        simp only [depsAdd, List.map_cons] at hl
        rcases List.mem_cons.mp hl with rfl | hl2
        · exact mem_setAdd_self s.relevant_lines l
        · exact mem_setAdd_of_mem line (h1 l hl2)
      · intro l hl
        exact mem_setAdd_of_mem line (h2 l hl)
    · exact ih s h1 h2

theorem processControl_keys (line : Nat) (event : TraceEvent) (s : SlicerState)
    (h1 : ∀ l, l ∈ s.data_deps.map Prod.fst → l ∈ s.relevant_lines)
    (h2 : ∀ l, l ∈ s.control_deps.map Prod.fst → l ∈ s.relevant_lines) :
    (∀ l, l ∈ (processControl line event s).data_deps.map Prod.fst →
       l ∈ (processControl line event s).relevant_lines) ∧
    (∀ l, l ∈ (processControl line event s).control_deps.map Prod.fst →
       l ∈ (processControl line event s).relevant_lines) := by
  by_cases hc1 : is_control_statement event = true
  · by_cases hc2 : ((extract_control_variables event).any
        fun v => s.variables_of_interest.contains v) = true
    · rw [processControl_eq_of_pos line event s hc1 hc2]
      constructor
      · intro l hl
        exact mem_setAdd_of_mem line (h1 l hl)
      · intro l hl
        rcases addControlDeps_keys (setAdd s.relevant_lines line) s.control_deps line l hl
          with hm | hr
        · exact mem_setAdd_of_mem line (h2 l hm)
        · exact hr
    · have hb : ((extract_control_variables event).any
          fun v => s.variables_of_interest.contains v) = false := by
        cases hbv : ((extract_control_variables event).any
          fun v => s.variables_of_interest.contains v)
        · rfl
        · exact absurd hbv hc2
      rw [processControl_eq_of_no_inter line event s hb]
      exact ⟨h1, h2⟩
  · have hb1 : is_control_statement event = false := by
      cases hbv : is_control_statement event
      · rfl
      · exact absurd hbv hc1
    rw [processControl_eq_of_not_control line event s hb1]
    exact ⟨h1, h2⟩

theorem processEvent_keys (s : SlicerState) (event : TraceEvent)
    (h1 : ∀ l, l ∈ s.data_deps.map Prod.fst → l ∈ s.relevant_lines)
    (h2 : ∀ l, l ∈ s.control_deps.map Prod.fst → l ∈ s.relevant_lines) :
    (∀ l, l ∈ (processEvent s event).data_deps.map Prod.fst →
       l ∈ (processEvent s event).relevant_lines) ∧
    (∀ l, l ∈ (processEvent s event).control_deps.map Prod.fst →
       l ∈ (processEvent s event).relevant_lines) := by
  have hw := processWrites_keys event.line_number event (get_affected_variables event) s h1 h2
  exact processControl_keys event.line_number event
    (processWrites event.line_number event s (get_affected_variables event)) hw.1 hw.2

theorem foldl_processEvent_keys :
    ∀ (evs : List TraceEvent) (s : SlicerState),
      (∀ l, l ∈ s.data_deps.map Prod.fst → l ∈ s.relevant_lines) →
      (∀ l, l ∈ s.control_deps.map Prod.fst → l ∈ s.relevant_lines) →
      (∀ l, l ∈ (evs.foldl processEvent s).data_deps.map Prod.fst →
         l ∈ (evs.foldl processEvent s).relevant_lines) ∧
      (∀ l, l ∈ (evs.foldl processEvent s).control_deps.map Prod.fst →
         l ∈ (evs.foldl processEvent s).relevant_lines) := by
  intro evs
  induction evs with
  | nil => intro s h1 h2; exact ⟨h1, h2⟩
  | cons e rest ih =>
    intro s h1 h2
    have hstep := processEvent_keys s e h1 h2
    exact ih (processEvent s e) hstep.1 hstep.2

/-- C9: every line that keys the data-dependency map or the
control-dependency map of a returned `SliceResult` is in its
relevant-statements set. -/
theorem slice_dependency_keys_relevant (trace : List TraceEvent) (tl : Nat) (tv : String) :
    (∀ l, l ∈ (compute_dynamic_slice trace tl tv).data_dependencies.map Prod.fst →
       l ∈ (compute_dynamic_slice trace tl tv).relevant_lines)
    ∧ (∀ l, l ∈ (compute_dynamic_slice trace tl tv).control_dependencies.map Prod.fst →
       l ∈ (compute_dynamic_slice trace tl tv).relevant_lines) := by
  cases hfind : find_target_event trace tl tv with
  | none =>
    simp only [compute_dynamic_slice]
    rw [hfind]
    constructor <;> intro l hl <;> simp at hl
  | some idx =>
    simp only [compute_dynamic_slice]
    rw [hfind]
    exact foldl_processEvent_keys ((trace.take (idx + 1)).reverse) ⟨[], [tv], [], []⟩
      (by intro l hl; simp at hl) (by intro l hl; simp at hl)

/-- Witness for C9 at the demo slice `d @ line 3`: line 2 keys the
data-dependency map and line 3 keys the control-dependency map, and both
are relevant. -/
theorem slice_dependency_keys_relevant_witness :
    2 ∈ (compute_dynamic_slice sliceDemoTrace 3 "d").relevant_lines
    ∧ 3 ∈ (compute_dynamic_slice sliceDemoTrace 3 "d").relevant_lines :=
  ⟨(slice_dependency_keys_relevant sliceDemoTrace 3 "d").1 2 (by decide),
   (slice_dependency_keys_relevant sliceDemoTrace 3 "d").2 3 (by decide)⟩

end DynAnalysis
